import Mathlib

/-!
Verification of the metadata aggregation core (`lsst/verify/jobmetadata.py`)
and the measurement collection (`lsst/verify/measurementset.py`).

The Python classes are embedded shallowly:

* Python `dict`s (insertion ordered) become association lists
  `List (String × β)` with update-in-place / append semantics.
* `Metadata` together with its bound `MeasurementSet` becomes a single
  state record `World`.  Python object aliasing matters here: the cached
  `ChainMap` holds references to `Measurement.notes._data` dictionaries,
  which stay alive even after the measurement is removed from the set.
  We therefore keep every measurement object in an append-only pool
  `World.objs` and let both the set (`ms_items`) and the cached chain
  (`chain_rest`) refer to pool indices.
* The regex `^(\S+\.\S+)\.` used by `Metadata._get_prefix` is embedded as
  an explicit backtracking matcher (`firstSeg`/`seg2`) with Python's
  leftmost/greedy strategy: the first `\S+` prefers the longest length;
  for each choice the second `\S+` prefers the longest length.
* Exceptions become `Except`/`Bool` error results.
-/

/-- Python ASCII whitespace, the complement of `\S` in the prefix regex. -/
def isSp (c : Char) : Bool :=
  c = ' ' || c = '\t' || c = '\n' || c = '\r' || c = '\x0b' || c = '\x0c'

/-- All characters of `l` match `\S`. -/
def allNonSp (l : List Char) : Bool :=
  l.all fun c => !(isSp c)

/-- Backtracking matcher for the tail `\S+\.` of the pattern, anchored at the
start of `cs`: try the segment length `n` first, going down (greedy `\S+`).
Returns the total number of characters consumed (segment plus the dot). -/
def seg2 (cs : List Char) : Nat → Option Nat
  | 0 => none
  | n + 1 =>
    if allNonSp (cs.take (n + 1)) = true ∧ cs[n + 1]? = some '.' then
      some (n + 2)
    else
      seg2 cs n

/-- Backtracking matcher for the whole pattern `^\S+\.\S+\.` (the match of
`Metadata._prefix_pattern`, group 0): the first `\S+` takes length `n` first,
going down; after its dot the rest is matched by `seg2` on the remaining
characters.  Returns the number of characters of the overall match. -/
def firstSeg (cs : List Char) : Nat → Option Nat
  | 0 => none
  | n + 1 =>
    if allNonSp (cs.take (n + 1)) = true ∧ cs[n + 1]? = some '.' then
      match seg2 (cs.drop (n + 2)) (cs.length - (n + 2)) with
      | some k => some (n + 2 + k)
      | none => firstSeg cs n
    else
      firstSeg cs n

/-- Embeds `Metadata._get_prefix`: match `^(\S+\.\S+)\.` against `key` and
return group 0 (the metric-name candidate including its trailing dots),
or `none` when the pattern does not match. -/
def getPfx (key : String) : Option String :=
  (firstSeg key.data key.data.length).map fun n => String.mk (key.data.take n)

/-- Embeds Python's `str.rstrip('.')` on character lists: drop every
trailing `'.'`. -/
def dropDots (l : List Char) : List Char :=
  (l.reverse.dropWhile fun c => c = '.').reverse

/-- Embeds `prefix.rstrip('.')` as used by `Metadata.__setitem__` /
`__delitem__` to turn a matched prefix into a metric name. -/
def rstripDots (s : String) : String :=
  String.mk (dropDots s.data)

/-! ## Association-list embedding of Python `dict` -/

/-- `d[k]` as an option (Python raises `KeyError` on a miss). -/
def dictGet? {β : Type} : List (String × β) → String → Option β
  | [], _ => none
  | (k, v) :: rest, key => if k = key then some v else dictGet? rest key

/-- `d[k] = v`: replace the value at the first occurrence of `k`, keeping its
insertion position, or append a fresh entry. -/
def dictSet {β : Type} : List (String × β) → String → β → List (String × β)
  | [], key, v => [(key, v)]
  | (k, w) :: rest, key, v =>
    if k = key then (k, v) :: rest else (k, w) :: dictSet rest key v

/-- `del d[k]`: remove the entry, or `none` for the `KeyError` case. -/
def dictDel? {β : Type} : List (String × β) → String → Option (List (String × β))
  | [], _ => none
  | (k, w) :: rest, key =>
    if k = key then some rest else (dictDel? rest key).map fun d => (k, w) :: d

/-- The keys of a dict, in insertion order. -/
def dictKeys {β : Type} (d : List (String × β)) : List String :=
  d.map Prod.fst

/-! ## Names and measurements

`lsst.verify.naming.Name` and `lsst.verify.Measurement` are not part of the
sources under verification; the spec describes them by contract.  Keys are
kept in their canonical string form throughout (the spec makes `Name`
equality and hashing go by the canonical string, and the set coerces every
bare string key through `Name(metric=key)`). -/

/-- Modelled from the spec: `Name.is_metric` for a canonical string key.
The spec's data model makes a metric-qualified name one of shape
`"metric.submetric"` — exactly two dot-delimited components, both
nonempty — and `is_metric` distinguishes such names from plain keys. -/
def nameIsMetric (s : String) : Bool :=
  decide ((s.data.count '.') = 1) &&
    !(s.data.head? = some '.') && !(s.data.getLast? = some '.')

/-- A measurement object: its declared metric name (canonical string form)
and its annotation store `notes._data` (a flat Python dict). -/
structure Measurement (α : Type) where
  metric_name : String
  notes_data : List (String × α)
deriving DecidableEq

/-- Placeholder measurement used for out-of-range pool accesses (never hit
from states built by the operations). -/
def mDefault {α : Type} : Measurement α := ⟨"", []⟩

/-- Modelled from the spec: the key under which `MeasurementNotes`
(`Measurement.notes`, not in the sources) files a `set`/`delete` request:
the store keeps full metric-prefixed keys in `_data` and internally
prefixes a bare local name with its own metric name; a key that already
carries the `"<metric>."` prefix is handed through unchanged. -/
def notesKey {α : Type} (m : Measurement α) (key : String) : String :=
  if List.isPrefixOf (m.metric_name ++ ".").data key.data then key
  else m.metric_name ++ "." ++ key

/-- Modelled from the spec: `measurement.notes[key] = value`. -/
def notesSet {α : Type} (m : Measurement α) (key : String) (v : α) :
    Measurement α :=
  { m with notes_data := dictSet m.notes_data (notesKey m key) v }

/-- Modelled from the spec: `del measurement.notes[key]`, `none` on a
`KeyError`. -/
def notesDel? {α : Type} (m : Measurement α) (key : String) :
    Option (Measurement α) :=
  (dictDel? m.notes_data (notesKey m key)).map fun d =>
    { m with notes_data := d }

/-! ## The combined state

`World` is the state of one `Metadata` instance together with the
`MeasurementSet` it is bound to.  `objs` is the append-only pool of
measurement objects (Python heap); `ms_items` is `MeasurementSet._items`
(name → pool index); `md_data` is `Metadata._data`; `cached_prefixes` is
`Metadata._cached_prefixes` (a set, held here as a list compared
set-wise); `chain_rest` lists the pool indices whose `notes._data` dicts
the cached `ChainMap` references after the leading `_data` layer. -/

structure World (α : Type) where
  objs : List (Measurement α)
  ms_items : List (String × Nat)
  md_data : List (String × α)
  cached_prefixes : List String
  chain_rest : List Nat
deriving DecidableEq

/-- The metric names currently in the bound set:
`set(str(name) for name in self._meas_set)`. -/
def msNames {α : Type} (w : World α) : List String :=
  dictKeys w.ms_items

/-- Python `set` equality of two name collections. -/
def sameSet (a b : List String) : Bool :=
  decide ((∀ x ∈ a, x ∈ b) ∧ (∀ x ∈ b, x ∈ a))

/-- Embeds `Metadata._refresh_chainmap`: when the set of metric names
differs from the cached one, rebuild the chain as `_data` followed by the
`notes._data` of every measurement in the set's iteration order. -/
def refreshChainmap {α : Type} (w : World α) : World α :=
  if sameSet w.cached_prefixes (msNames w) = true then w
  else
    { w with
      cached_prefixes := msNames w
      chain_rest := w.ms_items.map Prod.snd }

/-- The notes dict a chain entry refers to (alias into the pool). -/
def layerOf {α : Type} (objs : List (Measurement α)) (i : Nat) :
    List (String × α) :=
  ((objs[i]?).map Measurement.notes_data).getD []

/-- The maps of the cached `ChainMap`, in lookup order. -/
def layerStores {α : Type} (w : World α) : List (List (String × α)) :=
  w.md_data :: w.chain_rest.map (layerOf w.objs)

/-- `ChainMap` lookup over a list of maps: the first map containing the
key wins. -/
def storesGet? {α : Type} : List (List (String × α)) → String → Option α
  | [], _ => none
  | d :: rest, key =>
    match dictGet? d key with
    | some v => some v
    | none => storesGet? rest key

/-- `self._chain[key]`. -/
def chainGet? {α : Type} (w : World α) (key : String) : Option α :=
  storesGet? (layerStores w) key

/-- The distinct keys of the flattened view (`len(ChainMap)` counts the
union `set().union(*maps)`). -/
def chainKeys {α : Type} (w : World α) : List String :=
  ((layerStores w).map dictKeys).flatten.dedup

/-- `len(self._chain)`. -/
def chainLen {α : Type} (w : World α) : Nat :=
  (chainKeys w).length

/-! ## Metadata operations (`jobmetadata.py`) -/

/-- Embeds `Metadata.__getitem__`: refresh the chain, then look the key up
in the flattened view (`none` is the `KeyError` case).  Returns the new
state alongside, since the refresh mutates the cache. -/
def mdGet {α : Type} (w : World α) (key : String) : World α × Option α :=
  let w' := refreshChainmap w
  (w', chainGet? w' key)

/-- Embeds `Metadata.__contains__`. -/
def mdContains {α : Type} (w : World α) (key : String) : World α × Bool :=
  let w' := refreshChainmap w
  (w', (chainGet? w' key).isSome)

/-- Embeds `Metadata.__len__`. -/
def mdLen {α : Type} (w : World α) : World α × Nat :=
  let w' := refreshChainmap w
  (w', chainLen w')

/-- Embeds `Metadata.__setitem__`: resolve the key's prefix; when the
stripped metric name is in the bound set, route the write (with the full
original key) into that measurement's annotation store, else store it in
the general-purpose dict.  (`metric_name in self._meas_set` succeeds
exactly when the `ms_items` lookup does, so the lookup plays both the
membership test and the subsequent indexing.) -/
def mdSet {α : Type} (w : World α) (key : String) (v : α) : World α :=
  match getPfx key with
  | some p =>
    let mn := rstripDots p
    match dictGet? w.ms_items mn with
    | some i =>
      match w.objs[i]? with
      | some m => { w with objs := w.objs.set i (notesSet m key v) }
      | none => w
    | none => { w with md_data := dictSet w.md_data key v }
  | none => { w with md_data := dictSet w.md_data key v }

/-- Embeds `Metadata.__delitem__` with the same routing as `mdSet`; the
`Bool` is the `KeyError` flag, and an erroring delete returns the state
unchanged (the Python `del` raises before any mutation). -/
def mdDel {α : Type} (w : World α) (key : String) : World α × Bool :=
  match getPfx key with
  | some p =>
    let mn := rstripDots p
    match dictGet? w.ms_items mn with
    | some i =>
      match w.objs[i]? with
      | some m =>
        match notesDel? m key with
        | some m' => ({ w with objs := w.objs.set i m' }, false)
        | none => (w, true)
      | none => (w, true)
    | none =>
      match dictDel? w.md_data key with
      | some d => ({ w with md_data := d }, false)
      | none => (w, true)
  | none =>
    match dictDel? w.md_data key with
    | some d => ({ w with md_data := d }, false)
    | none => (w, true)

/-- Embeds `Metadata.__eq__`: refresh both sides (via their `__len__`),
short-circuit on the flattened lengths, then require every key/value pair
of `other` to be present with an equal value in `self`. -/
def mdEq {α : Type} [DecidableEq α] (w1 w2 : World α) : Bool :=
  if chainLen (refreshChainmap w1) = chainLen (refreshChainmap w2) then
    decide (∀ k ∈ chainKeys (refreshChainmap w2),
      chainGet? (refreshChainmap w1) k = chainGet? (refreshChainmap w2) k)
  else
    false

/-! ## MeasurementSet operations (`measurementset.py`) -/

/-- The value handed to `MeasurementSet.__setitem__`: either a measurement
object or something that fails the `isinstance(value, Measurement)` check. -/
inductive PyVal (α : Type) where
  | meas (m : Measurement α)
  | notMeas
deriving DecidableEq

/-- The exceptions `MeasurementSet` raises. -/
inductive MSErr where
  | keyErr
  | typeErr
deriving DecidableEq

/-- Embeds `MeasurementSet.__setitem__` (keys in canonical string form):
reject non-metric keys with a `KeyError`, non-measurement values with a
`TypeError`, and a key different from the measurement's own declared
metric name with a `KeyError`; otherwise allocate the object and bind the
key to it. -/
def msSetitem {α : Type} (w : World α) (key : String) (v : PyVal α) :
    Except MSErr (World α) :=
  if nameIsMetric key = true then
    match v with
    | .meas m =>
      if key = m.metric_name then
        .ok
          { w with
            objs := w.objs ++ [m]
            ms_items := dictSet w.ms_items key w.objs.length }
      else
        .error .keyErr
    | .notMeas => .error .typeErr
  else
    .error .keyErr

/-- Embeds `MeasurementSet.insert`. -/
def msInsert {α : Type} (w : World α) (m : Measurement α) :
    Except MSErr (World α) :=
  msSetitem w m.metric_name (.meas m)

/-- Embeds `MeasurementSet.__delitem__` (`KeyError` when absent). -/
def msDelitem {α : Type} (w : World α) (key : String) :
    Except MSErr (World α) :=
  match dictDel? w.ms_items key with
  | some items => .ok { w with ms_items := items }
  | none => .error .keyErr

/-- The state with no measurement objects and empty metadata. -/
def emptyWorld {α : Type} : World α := ⟨[], [], [], [], []⟩

/-- The constructor loop `for measurement in measurements: self[...] = ...`. -/
def msInsertAll {α : Type} : List (Measurement α) → World α →
    Except MSErr (World α)
  | [], w => .ok w
  | m :: rest, w =>
    match msInsert w m with
    | .ok w' => msInsertAll rest w'
    | .error e => .error e

/-- Embeds `MeasurementSet.__init__(measurements=None)`: iterating the
default `None` raises a `TypeError` unconditionally; a list is inserted
element by element. -/
def msInit {α : Type} (measurements : Option (List (Measurement α))) :
    Except MSErr (World α) :=
  match measurements with
  | none => .error .typeErr
  | some ms => msInsertAll ms emptyWorld

/-- Embeds `Metadata.__init__` over an already-populated set: start with an
empty `_data`, an empty cached prefix set and a chain of just `_data`,
refresh, then `update` with the seed dict (each seed pair going through
`__setitem__`). -/
def mdInit {α : Type} (w : World α) (seed : List (String × α)) : World α :=
  let w0 :=
    { w with
      md_data := ([] : List (String × α))
      cached_prefixes := ([] : List String)
      chain_rest := ([] : List Nat) }
  let w1 := refreshChainmap w0
  seed.foldl (fun acc kv => mdSet acc kv.1 kv.2) w1

/-! ## Lemmas about the prefix matcher -/

theorem seg2_no_dot {cs : List Char} (h : ∀ c ∈ cs, c ≠ '.') :
    ∀ n, seg2 cs n = none := by
  intro n
  induction n with
  | zero => rfl
  | succ n ih =>
    rw [seg2, if_neg, ih]
    rintro ⟨-, hdot⟩
    exact h _ (List.getElem?_mem hdot) rfl

theorem firstSeg_no_dot {cs : List Char} (h : ∀ c ∈ cs, c ≠ '.') :
    ∀ n, firstSeg cs n = none := by
  intro n
  induction n with
  | zero => rfl
  | succ n ih =>
    rw [firstSeg, if_neg, ih]
    rintro ⟨-, hdot⟩
    exact h _ (List.getElem?_mem hdot) rfl

/-- A dot-free string never yields a prefix match. -/
theorem getPfx_no_dot {s : String} (h : ∀ c ∈ s.data, c ≠ '.') :
    getPfx s = none := by
  unfold getPfx
  rw [firstSeg_no_dot h]
  rfl

/-- `seg2` on `B ++ '.' :: C` with `B` and `C` dot-free consumes exactly
`B` and its dot (greediness backtracks down to the unique dot), at every
budget of at least `|B|`. -/
theorem seg2_hit {B C : List Char} (hB : B ≠ []) (hBs : allNonSp B = true)
    (hBd : '.' ∉ B) (hCd : '.' ∉ C) :
    ∀ j, seg2 (B ++ '.' :: C) (B.length + j) = some (B.length + 1) := by
  intro j
  induction j with
  | zero =>
    obtain ⟨b, B', rfl⟩ : ∃ b B', B = b :: B' := by
      cases B with
      | nil => exact absurd rfl hB
      | cons b B' => exact ⟨b, B', rfl⟩
    have hlen : (b :: B').length = B'.length + 1 := rfl
    rw [Nat.add_zero, hlen, seg2, if_pos]
    constructor
    · rw [← hlen, List.take_left]
      exact hBs
    · rw [← hlen, List.getElem?_append_right (Nat.le_refl _), Nat.sub_self]
      simp
  | succ j ih =>
    have harr : B.length + (j + 1) = (B.length + j) + 1 := by omega
    rw [harr, seg2, if_neg, ih]
    rintro ⟨-, hdot⟩
    rw [List.getElem?_append_right (by omega)] at hdot
    have : B.length + j + 1 - B.length = j + 1 := by omega
    rw [this] at hdot
    simp only [List.getElem?_cons_succ] at hdot
    exact hCd (List.getElem?_mem hdot)

/-- A take of an all-non-whitespace list is all-non-whitespace. -/
theorem allNonSp_take {l : List Char} (h : allNonSp l = true) (n : Nat) :
    allNonSp (l.take n) = true := by
  simp only [allNonSp, List.all_eq_true] at h ⊢
  exact fun c hc => h c (List.take_subset n l hc)

/-- The full candidate key `A ++ "." ++ B ++ "." ++ C` is non-whitespace
when its pieces are. -/
theorem allNonSp_shape {A B C : List Char} (hA : allNonSp A = true)
    (hB : allNonSp B = true) (hC : allNonSp C = true) :
    allNonSp (A ++ '.' :: (B ++ '.' :: C)) = true := by
  simp only [allNonSp, List.all_eq_true] at hA hB hC ⊢
  intro c hc
  rcases List.mem_append.1 hc with h | h
  · exact hA c h
  · rcases List.mem_cons.1 h with rfl | h
    · rfl
    · rcases List.mem_append.1 h with h | h
      · exact hB c h
      · rcases List.mem_cons.1 h with rfl | h
        · rfl
        · exact hC c h

/-- One backtracking step of the first `\S+` above the winning length: for
budgets beyond `|A|`, `firstSeg` on `A ++ '.' :: B ++ '.' :: C` (with `B`
and `C` dot-free) just steps down. -/
theorem firstSeg_step {A B C : List Char} (hAs : allNonSp A = true)
    (hBs : allNonSp B = true) (hCs : allNonSp C = true)
    (hBd : '.' ∉ B) (hCd : '.' ∉ C) :
    ∀ j, firstSeg (A ++ '.' :: (B ++ '.' :: C)) (A.length + (j + 1)) =
      firstSeg (A ++ '.' :: (B ++ '.' :: C)) (A.length + j) := by
  intro j
  set cs := A ++ '.' :: (B ++ '.' :: C) with hcs
  have harr : A.length + (j + 1) = (A.length + j) + 1 := by omega
  rw [harr, firstSeg]
  by_cases hdot : cs[A.length + j + 1]? = some '.'
  · -- a dot beyond position `|A|` can only be the dot after `B`
    have hj : j = B.length := by
      by_contra hne
      have h1 : cs[A.length + j + 1]? = (B ++ '.' :: C)[j]? := by
        rw [hcs, List.getElem?_append_right (by omega)]
        have : A.length + j + 1 - A.length = j + 1 := by omega
        rw [this]
        simp only [List.getElem?_cons_succ]
      rw [h1] at hdot
      rcases Nat.lt_or_ge j B.length with hlt | hge
      · rw [List.getElem?_append_left hlt] at hdot
        exact hBd (List.getElem?_mem hdot)
      · rw [List.getElem?_append_right hge] at hdot
        obtain ⟨t, ht⟩ : ∃ t, j - B.length = t + 1 := ⟨j - B.length - 1, by omega⟩
        rw [ht] at hdot
        simp only [List.getElem?_cons_succ] at hdot
        exact hCd (List.getElem?_mem hdot)
    -- then the second `\S+` faces the dot-free `C` and fails
    have hdrop : cs.drop (A.length + j + 2) = C := by
      have hsplit : cs = (A ++ '.' :: B ++ ['.']) ++ C := by
        rw [hcs]; simp
      have hlen : A.length + j + 2 = (A ++ '.' :: B ++ ['.']).length := by
        simp [hj]; omega
      rw [hsplit, hlen, List.drop_left]
    rw [if_pos ⟨allNonSp_take (allNonSp_shape hAs hBs hCs) _, hdot⟩, hdrop,
      seg2_no_dot (fun c hc hc' => hCd (hc' ▸ hc))]
  · rw [if_neg]
    rintro ⟨-, h⟩
    exact hdot h

/-- The winning budget: at `|A|` the first `\S+` consumes `A`, the second
consumes `B`, and the match ends at the dot after `B`; every larger budget
backtracks down to this one. -/
theorem firstSeg_hit {A B C : List Char} (hA : A ≠ []) (hAs : allNonSp A = true)
    (hB : B ≠ []) (hBs : allNonSp B = true) (hCs : allNonSp C = true)
    (hBd : '.' ∉ B) (hCd : '.' ∉ C) :
    ∀ j, firstSeg (A ++ '.' :: (B ++ '.' :: C)) (A.length + j) =
      some (A.length + B.length + 2) := by
  intro j
  induction j with
  | zero =>
    obtain ⟨a, A', rfl⟩ : ∃ a A', A = a :: A' := by
      cases A with
      | nil => exact absurd rfl hA
      | cons a A' => exact ⟨a, A', rfl⟩
    set cs := (a :: A') ++ '.' :: (B ++ '.' :: C) with hcs
    have hlen : (a :: A').length = A'.length + 1 := rfl
    rw [Nat.add_zero, hlen, firstSeg, if_pos]
    · have hdrop : cs.drop (A'.length + 2) = B ++ '.' :: C := by
        have hsplit : cs = ((a :: A') ++ ['.']) ++ (B ++ '.' :: C) := by
          rw [hcs]; simp
        have hl2 : A'.length + 2 = ((a :: A') ++ ['.']).length := by simp
        rw [hsplit, hl2, List.drop_left]
      have hbud : cs.length - (A'.length + 2) = B.length + (C.length + 1) := by
        rw [hcs]; simp; omega
      rw [hdrop, hbud, seg2_hit hB hBs hBd hCd]
      show some (A'.length + 2 + (B.length + 1)) =
        some ((a :: A').length + B.length + 2)
      simp only [Option.some.injEq, List.length_cons]
      omega
    · constructor
      · rw [← hlen, List.take_left]
        exact hAs
      · rw [← hlen, List.getElem?_append_right (Nat.le_refl _), Nat.sub_self]
        simp
  | succ j ih =>
    rw [firstSeg_step hAs hBs hCs hBd hCd j, ih]

/-- `Metadata._get_prefix` on a key split as `A ++ "." ++ B ++ "." ++ C`,
with `B` and `C` dot-free (so the dot after `B` is the key's last dot):
the match is everything up to and including that last dot. -/
theorem getPfx_split {A B C : String} (hA : A.data ≠ [])
    (hAs : allNonSp A.data = true) (hB : B.data ≠ [])
    (hBs : allNonSp B.data = true) (hCs : allNonSp C.data = true)
    (hBd : '.' ∉ B.data) (hCd : '.' ∉ C.data) :
    getPfx (A ++ "." ++ B ++ "." ++ C) = some (A ++ "." ++ B ++ ".") := by
  have hdata : (A ++ "." ++ B ++ "." ++ C).data
      = A.data ++ '.' :: (B.data ++ '.' :: C.data) := by
    show A.data ++ ('.' :: []) ++ B.data ++ ('.' :: []) ++ C.data = _
    simp
  unfold getPfx
  rw [hdata]
  have hlen : (A.data ++ '.' :: (B.data ++ '.' :: C.data)).length
      = A.data.length + (B.data.length + C.data.length + 2) := by
    simp
    omega
  rw [hlen, firstSeg_hit hA hAs hB hBs hCs hBd hCd]
  have htake : (A.data ++ '.' :: (B.data ++ '.' :: C.data)).take
      (A.data.length + B.data.length + 2) = A.data ++ '.' :: (B.data ++ ['.']) := by
    have hsplit : A.data ++ '.' :: (B.data ++ '.' :: C.data)
        = (A.data ++ '.' :: (B.data ++ ['.'])) ++ C.data := by
      simp
    have hl2 : A.data.length + B.data.length + 2
        = (A.data ++ '.' :: (B.data ++ ['.'])).length := by
      simp
      omega
    rw [hsplit, hl2, List.take_left]
  rw [Option.map_some', htake]
  congr 1
  apply String.ext
  show A.data ++ '.' :: (B.data ++ ['.'])
    = (A ++ "." ++ B ++ ".").data
  show _ = A.data ++ ('.' :: []) ++ B.data ++ ('.' :: [])
  simp

/-! ## Claim C1 -/

/-- C1 counterexample: the claim says that on a key with four dot-delimited
components, such as `"a.b.c.d"`, `Metadata._get_prefix` returns the first
two components plus the trailing separator, `"a.b."`.  It does not: the
greedy `\S+` groups swallow dots, so the match is `"a.b.c."` — everything
up to the last dot. -/
theorem c1_counterexample :
    getPfx "a.b.c.d" = some "a.b.c." ∧ getPfx "a.b.c.d" ≠ some "a.b." := by
  constructor
  · decide
  · decide

/-- C1 (amended): for every key of shape `A ++ "." ++ B ++ "." ++ C` — `A`
the join of all leading components (nonempty, non-whitespace, further dots
allowed), `B` the penultimate component and `C` the final component (both
dot-free and non-whitespace, `B` nonempty) — `Metadata._get_prefix`
returns `A ++ "." ++ B ++ "."`: the prefix keeps every component except
the last one, not just the first two (for a three-component key the two
notions agree).  A key with no dot at all yields no match. -/
theorem c1_get_prefix_characterization :
    (∀ A B C : String, A.data ≠ [] → allNonSp A.data = true →
      B.data ≠ [] → allNonSp B.data = true → allNonSp C.data = true →
      '.' ∉ B.data → '.' ∉ C.data →
      getPfx (A ++ "." ++ B ++ "." ++ C) = some (A ++ "." ++ B ++ ".")) ∧
    (∀ s : String, (∀ c ∈ s.data, c ≠ '.') → getPfx s = none) :=
  ⟨fun _ _ _ hA hAs hB hBs hCs hBd hCd =>
      getPfx_split hA hAs hB hBs hCs hBd hCd,
    fun _ h => getPfx_no_dot h⟩

/-- C1 witness: the characterization applied to the spec's own examples,
the three-component key `"validate_drp.PA1.note"` and the dot-free key
`"note"`. -/
theorem c1_witness :
    getPfx ("validate_drp" ++ "." ++ "PA1" ++ "." ++ "note")
      = some ("validate_drp" ++ "." ++ "PA1" ++ ".") ∧
    getPfx "note" = none :=
  ⟨c1_get_prefix_characterization.1 "validate_drp" "PA1" "note"
      (by decide) (by decide) (by decide) (by decide) (by decide)
      (by decide) (by decide),
    c1_get_prefix_characterization.2 "note" (by decide)⟩

/-! ## Lemmas about dicts and the chain -/

theorem dictGet?_dictSet_self {β : Type} (d : List (String × β)) (k : String)
    (v : β) : dictGet? (dictSet d k v) k = some v := by
  induction d with
  | nil => simp [dictSet, dictGet?]
  | cons p rest ih =>
    obtain ⟨k', v'⟩ := p
    by_cases h : k' = k
    · simp [dictSet, h, dictGet?]
    · simp [dictSet, h, dictGet?, ih]

theorem dictGet?_eq_none_iff {β : Type} {d : List (String × β)} {k : String} :
    dictGet? d k = none ↔ k ∉ dictKeys d := by
  induction d with
  | nil => simp [dictGet?, dictKeys]
  | cons p rest ih =>
    obtain ⟨k', v'⟩ := p
    show (if k' = k then some v' else dictGet? rest k) = none ↔
      k ∉ k' :: dictKeys rest
    by_cases h : k' = k
    · simp [h]
    · rw [if_neg h, ih]
      constructor
      · intro hn hmem
        rcases List.mem_cons.1 hmem with rfl | hmem'
        · exact h rfl
        · exact hn hmem'
      · intro hn hmem
        exact hn (List.mem_cons_of_mem _ hmem)

theorem storesGet?_cons_some {α : Type} {d : List (String × α)}
    {S : List (List (String × α))} {k : String} {v : α}
    (h : dictGet? d k = some v) : storesGet? (d :: S) k = some v := by
  simp [storesGet?, h]

theorem storesGet?_cons_none {α : Type} {d : List (String × α)}
    {S : List (List (String × α))} {k : String}
    (h : dictGet? d k = none) : storesGet? (d :: S) k = storesGet? S k := by
  simp [storesGet?, h]

theorem storesGet?_eq_none_iff {α : Type} {S : List (List (String × α))}
    {k : String} :
    storesGet? S k = none ↔ ∀ d ∈ S, dictGet? d k = none := by
  induction S with
  | nil => simp [storesGet?]
  | cons d S ih =>
    unfold storesGet?
    cases h : dictGet? d k with
    | some v => simp [h]
    | none => simp [h, ih]

theorem refreshChainmap_md_data {α : Type} (w : World α) :
    (refreshChainmap w).md_data = w.md_data := by
  unfold refreshChainmap
  split <;> rfl

theorem refreshChainmap_objs {α : Type} (w : World α) :
    (refreshChainmap w).objs = w.objs := by
  unfold refreshChainmap
  split <;> rfl

theorem refreshChainmap_ms_items {α : Type} (w : World α) :
    (refreshChainmap w).ms_items = w.ms_items := by
  unfold refreshChainmap
  split <;> rfl

/-- A key present in the general-purpose store is always answered from it:
`_data` is the first map of the `ChainMap`. -/
theorem mdGet_general_hit {α : Type} {w : World α} {k : String} {v : α}
    (h : dictGet? w.md_data k = some v) : (mdGet w k).2 = some v := by
  show chainGet? (refreshChainmap w) k = some v
  unfold chainGet? layerStores
  rw [refreshChainmap_md_data]
  exact storesGet?_cons_some h

/-! ## Claim C2 -/

/-- C2 counterexample: with the general store holding `"a.b.c" ↦ 1` and the
(later-added) annotation layer of measurement `"a.b"` holding
`"a.b.c" ↦ 2`, a read returns `1` from the general store — the earlier
layer — not `2` from the later-added measurement layer as the claim says.
The state is reachable: seed the metadata with `"a.b.c"` while `"a.b"` is
not yet in the set, then add the measurement and read. -/
theorem c2_counterexample :
    (mdGet (⟨[⟨"a.b", [("a.b.c", 2)]⟩], [("a.b", 0)], [("a.b.c", 1)],
        ["a.b"], [0]⟩ : World Nat) "a.b.c").2 = some 1 ∧
      some (1 : Nat) ≠ some 2 := by
  exact ⟨by decide, by decide⟩

/-- C2 (amended): on a key collision between layers, a read returns the
value from the *earliest* layer that holds the key; in particular the
general-purpose store, being the first map of the chain, shadows every
measurement-annotation layer. -/
theorem c2_earliest_layer_wins {α : Type} (w : World α) (k : String) (v : α)
    (h : dictGet? w.md_data k = some v) : (mdGet w k).2 = some v :=
  mdGet_general_hit h

/-- C2 witness: the amended priority rule applied to the counterexample
state. -/
theorem c2_witness :
    (mdGet (⟨[⟨"a.b", [("a.b.c", 2)]⟩], [("a.b", 0)], [("a.b.c", 1)],
        ["a.b"], [0]⟩ : World Nat) "a.b.c").2 = some 1 :=
  c2_earliest_layer_wins _ "a.b.c" 1 (by decide)

/-! ## Claim C4 -/

/-- C4: a key with no metric prefix is stored in the general-purpose store
and read back from it, whatever the bound `MeasurementSet` contains; the
general store is the first chain map, so nothing can shadow the value. -/
theorem c4_plain_key_roundtrip {α : Type} (w : World α) (k : String) (v : α)
    (h : getPfx k = none) :
    (mdGet (mdSet w k v) k).2 = some v ∧
      dictGet? (mdSet w k v).md_data k = some v := by
  have hset : mdSet w k v = { w with md_data := dictSet w.md_data k v } := by
    unfold mdSet
    rw [h]
  rw [hset]
  exact ⟨mdGet_general_hit (dictGet?_dictSet_self _ _ _),
    dictGet?_dictSet_self _ _ _⟩

/-- C4 witness: a plain key round-trips through a state whose measurement
set is nonempty. -/
theorem c4_witness :
    (mdGet (mdSet (⟨[⟨"a.b", [("a.b.c", 2)]⟩], [("a.b", 0)], [], ["a.b"],
        [0]⟩ : World Nat) "note" 7) "note").2 = some 7 ∧
      dictGet? (mdSet (⟨[⟨"a.b", [("a.b.c", 2)]⟩], [("a.b", 0)], [],
        ["a.b"], [0]⟩ : World Nat) "note" 7).md_data "note" = some 7 :=
  c4_plain_key_roundtrip _ "note" 7 (by decide)

/-! ## Claim C6 -/

/-- C6 counterexample: `len(ChainMap)` counts the *union* of the layers'
key sets.  In the reachable state where the general store and the
annotation store of measurement `"a.b"` both hold the key `"a.b.c"`,
`length()` is `1` while the claimed count-plus-sum is `2`. -/
theorem c6_counterexample :
    (mdLen (⟨[⟨"a.b", [("a.b.c", 2)]⟩], [("a.b", 0)], [("a.b.c", 1)],
        ["a.b"], [0]⟩ : World Nat)).2 = 1 ∧
      ((⟨[⟨"a.b", [("a.b.c", 2)]⟩], [("a.b", 0)], [("a.b.c", 1)],
          ["a.b"], [0]⟩ : World Nat).md_data.length +
        ((⟨[⟨"a.b", [("a.b.c", 2)]⟩], [("a.b", 0)], [("a.b.c", 1)],
            ["a.b"], [0]⟩ : World Nat).ms_items.map fun p =>
          (layerOf (⟨[⟨"a.b", [("a.b.c", 2)]⟩], [("a.b", 0)],
            [("a.b.c", 1)], ["a.b"], [0]⟩ : World Nat).objs p.2).length).sum
        = 2) ∧ (1 : Nat) ≠ 2 := by
  exact ⟨by decide, by decide, by decide⟩

/-- C6 (amended): `length()` equals the number of *distinct* keys across
the general store and the annotation stores of the current measurements;
when no key occurs in two places (each store duplicate-free and the
stores pairwise disjoint, i.e. the concatenation of all key lists is
duplicate-free) this equals the general-store key count plus the sum of
the annotation-store sizes.  The chain hypothesis says the refreshed
chain lists exactly the current measurements, which the refresh
establishes whenever the name set changed and which holds in every state
whose cache was built from the current set. -/
theorem c6_len_eq_sum {α : Type} (w : World α)
    (hchain : (refreshChainmap w).chain_rest = w.ms_items.map Prod.snd)
    (hnd : (((layerStores (refreshChainmap w)).map dictKeys).flatten).Nodup) :
    (mdLen w).2 = w.md_data.length +
      (w.ms_items.map fun p => (layerOf w.objs p.2).length).sum := by
  show chainLen (refreshChainmap w) = _
  unfold chainLen chainKeys
  rw [List.dedup_eq_self.2 hnd, List.length_flatten]
  unfold layerStores
  rw [refreshChainmap_md_data, refreshChainmap_objs, hchain]
  simp [dictKeys, List.map_map, Function.comp_def]

/-- C6 witness: a collision-free state where the flattened length is the
count-plus-sum. -/
theorem c6_witness :
    (mdLen (⟨[⟨"a.b", [("a.b.n", 5)]⟩], [("a.b", 0)], [("k", 1)],
        ["a.b"], [0]⟩ : World Nat)).2 = 2 := by
  have h := c6_len_eq_sum
    (⟨[⟨"a.b", [("a.b.n", 5)]⟩], [("a.b", 0)], [("k", 1)],
      ["a.b"], [0]⟩ : World Nat) (by decide) (by decide)
  rw [h]
  decide

/-! ## Claim C7 -/

theorem mem_chainKeys_iff {α : Type} {w : World α} {k : String} :
    k ∈ chainKeys w ↔ chainGet? w k ≠ none := by
  unfold chainKeys chainGet?
  rw [List.mem_dedup, List.mem_flatten]
  constructor
  · rintro ⟨l, hl, hk⟩ hnone
    rcases List.mem_map.1 hl with ⟨d, hd, rfl⟩
    exact dictGet?_eq_none_iff.1 (storesGet?_eq_none_iff.1 hnone d hd) hk
  · intro hne
    by_contra hnk
    apply hne
    rw [storesGet?_eq_none_iff]
    intro d hd
    rw [dictGet?_eq_none_iff]
    intro hmem
    exact hnk ⟨dictKeys d, List.mem_map_of_mem _ hd, hmem⟩

theorem nodup_chainKeys {α : Type} (w : World α) : (chainKeys w).Nodup :=
  List.nodup_dedup _

theorem length_eq_of_same_mem {l1 l2 : List String} (h1 : l1.Nodup)
    (h2 : l2.Nodup) (h : ∀ x, x ∈ l1 ↔ x ∈ l2) : l1.length = l2.length := by
  rw [← List.toFinset_card_of_nodup h1, ← List.toFinset_card_of_nodup h2]
  congr 1
  ext x
  simp only [List.mem_toFinset]
  exact h x

theorem mem_iff_of_subset_of_length {l1 l2 : List String} (h1 : l1.Nodup)
    (h2 : l2.Nodup) (hsub : ∀ x ∈ l2, x ∈ l1) (hlen : l1.length = l2.length) :
    ∀ x, x ∈ l1 ↔ x ∈ l2 := by
  have hfs : l2.toFinset ⊆ l1.toFinset := by
    intro x hx
    rw [List.mem_toFinset] at hx ⊢
    exact hsub x hx
  have hcard : l1.toFinset.card ≤ l2.toFinset.card := by
    rw [List.toFinset_card_of_nodup h1, List.toFinset_card_of_nodup h2, hlen]
  have heq := Finset.eq_of_subset_of_card_le hfs hcard
  intro x
  rw [← List.mem_toFinset, ← heq, List.mem_toFinset]

/-- C7: two aggregation cores compare equal exactly when (after the
refresh both reads perform) their flattened views agree on every key —
present with equal values or absent on both sides.  In particular two
cores with identical flattened content compare equal however the entries
are split between the general store and the measurement layers. -/
theorem c7_eq_iff_same_flattened {α : Type} [DecidableEq α]
    (w1 w2 : World α) :
    mdEq w1 w2 = true ↔
      ∀ k, chainGet? (refreshChainmap w1) k
        = chainGet? (refreshChainmap w2) k := by
  unfold mdEq
  constructor
  · intro h
    by_cases hlen : chainLen (refreshChainmap w1)
        = chainLen (refreshChainmap w2)
    · rw [if_pos hlen] at h
      have hball := of_decide_eq_true h
      have hsub : ∀ k ∈ chainKeys (refreshChainmap w2),
          k ∈ chainKeys (refreshChainmap w1) := by
        intro k hk
        rw [mem_chainKeys_iff, hball k hk]
        exact mem_chainKeys_iff.1 hk
      have hmemiff := mem_iff_of_subset_of_length
        (nodup_chainKeys (refreshChainmap w1))
        (nodup_chainKeys (refreshChainmap w2)) hsub hlen
      intro k
      by_cases hkb : k ∈ chainKeys (refreshChainmap w2)
      · exact hball k hkb
      · have hka : k ∉ chainKeys (refreshChainmap w1) :=
          fun hmem => hkb ((hmemiff k).1 hmem)
        have e1 : chainGet? (refreshChainmap w1) k = none := by
          by_contra hne
          exact hka (mem_chainKeys_iff.2 hne)
        have e2 : chainGet? (refreshChainmap w2) k = none := by
          by_contra hne
          exact hkb (mem_chainKeys_iff.2 hne)
        rw [e1, e2]
    · rw [if_neg hlen] at h
      exact absurd h (by simp)
  · intro h
    have hmem : ∀ x, x ∈ chainKeys (refreshChainmap w1)
        ↔ x ∈ chainKeys (refreshChainmap w2) := by
      intro x
      rw [mem_chainKeys_iff, mem_chainKeys_iff, h x]
    have hlen : chainLen (refreshChainmap w1)
        = chainLen (refreshChainmap w2) := length_eq_of_same_mem
      (nodup_chainKeys (refreshChainmap w1))
      (nodup_chainKeys (refreshChainmap w2)) hmem
    rw [if_pos hlen]
    exact decide_eq_true fun k _ => h k

/-- C7 witness: a core holding `"a.b.c" ↦ 1` in its general store compares
equal to a core holding the same pair inside the measurement layer of
`"a.b"` instead — identical flattened content, different distribution. -/
theorem c7_witness :
    mdEq (⟨[], [], [("a.b.c", 1)], [], []⟩ : World Nat)
      (⟨[⟨"a.b", [("a.b.c", 1)]⟩], [("a.b", 0)], [], ["a.b"], [0]⟩ :
        World Nat) = true := by
  rw [c7_eq_iff_same_flattened]
  intro k
  by_cases h : "a.b.c" = k <;>
    simp [chainGet?, layerStores, storesGet?, dictGet?, layerOf,
      refreshChainmap, sameSet, msNames, dictKeys, h]

/-! ## Walking the measurement layers -/

theorem dictGet?_mem {β : Type} {d : List (String × β)} {k : String} {v : β}
    (h : dictGet? d k = some v) : (k, v) ∈ d := by
  induction d with
  | nil => cases h
  | cons p rest ih =>
    obtain ⟨k', v'⟩ := p
    by_cases hk : k' = k
    · subst hk
      rw [show dictGet? ((k', v') :: rest) k' = some v' from by
        simp [dictGet?]] at h
      cases h
      exact List.mem_cons_self _ _
    · rw [show dictGet? ((k', v') :: rest) k = dictGet? rest k from by
        simp [dictGet?, hk]] at h
      exact List.mem_cons_of_mem _ (ih h)

theorem getElem?_set_self_of_some {β : Type} {l : List β} {i : Nat}
    {a b : β} (h : l[i]? = some a) : (l.set i b)[i]? = some b := by
  have hi : i < l.length := by
    rcases List.getElem?_eq_some_iff.1 h with ⟨hlt, -⟩
    exact hlt
  rw [List.getElem?_eq_getElem (by simpa using hi)]
  simp [List.getElem_set_self]

/-- When the first map misses, a `ChainMap` lookup over the measurement
layers returns the value of the unique layer named by the routed metric,
provided every other layer misses the key. -/
theorem storesGet?_notes_hit {α : Type} {items : List (String × Nat)}
    {objs : List (Measurement α)} {k metric : String} {i : Nat} {v : α}
    (hmem : (metric, i) ∈ items)
    (hnd : (items.map Prod.fst).Nodup)
    (hmiss : ∀ n j, (n, j) ∈ items → n ≠ metric →
      dictGet? (layerOf objs j) k = none)
    (hhit : dictGet? (layerOf objs i) k = some v) :
    storesGet? (items.map fun p => layerOf objs p.2) k = some v := by
  induction items with
  | nil => cases hmem
  | cons p rest ih =>
    obtain ⟨n, j⟩ := p
    rcases List.mem_cons.1 hmem with heq | hmem'
    · obtain ⟨rfl, rfl⟩ := Prod.mk.inj heq
      rw [List.map_cons]
      exact storesGet?_cons_some hhit
    · by_cases hn : n = metric
      · exfalso
        subst hn
        have hmet : n ∈ rest.map Prod.fst :=
          List.mem_map.2 ⟨(n, i), hmem', rfl⟩
        rw [List.map_cons] at hnd
        exact (List.nodup_cons.1 hnd).1 hmet
      · rw [List.map_cons,
          storesGet?_cons_none (hmiss n j (List.mem_cons_self _ _) hn)]
        exact ih hmem' (by rw [List.map_cons] at hnd; exact hnd.of_cons)
          fun n' j' h' hne => hmiss n' j' (List.mem_cons_of_mem _ h') hne

/-- When every measurement layer misses the key, so does the walk. -/
theorem storesGet?_notes_none {α : Type} {items : List (String × Nat)}
    {objs : List (Measurement α)} {k : String}
    (hmiss : ∀ n j, (n, j) ∈ items → dictGet? (layerOf objs j) k = none) :
    storesGet? (items.map fun p => layerOf objs p.2) k = none := by
  rw [storesGet?_eq_none_iff]
  intro d hd
  rcases List.mem_map.1 hd with ⟨⟨n, j⟩, hmem, rfl⟩
  exact hmiss n j hmem

/-- A core whose cached name set matches the bound set is left unchanged
by the refresh. -/
theorem refreshChainmap_eq_self {α : Type} {w : World α}
    (h : sameSet w.cached_prefixes (msNames w) = true) :
    refreshChainmap w = w := by
  unfold refreshChainmap
  rw [if_pos h]

/-! ## Claim C3 -/

/-- C3 counterexample: when the general store *already* holds the literal
key (reachable by setting `"a.b.c"` before measurement `"a.b"` joins the
set), a routed `set` stores into the measurement's annotation store but
the following `get` answers from the general store — the old value — and
the general store still contains the literal key, contradicting the
claim's unconditional `get`-returns-the-value and
general-store-does-not-contain-the-key parts. -/
theorem c3_counterexample :
    (mdGet (mdSet (⟨[⟨"a.b", []⟩], [("a.b", 0)], [("a.b.c", 10)], ["a.b"],
        [0]⟩ : World Nat) "a.b.c" 20) "a.b.c").2 = some 10 ∧
      dictGet? (mdSet (⟨[⟨"a.b", []⟩], [("a.b", 0)], [("a.b.c", 10)],
        ["a.b"], [0]⟩ : World Nat) "a.b.c" 20).md_data "a.b.c" = some 10 ∧
      some (10 : Nat) ≠ some 20 := by
  exact ⟨by decide, by decide, by decide⟩

/-- C3 (amended): a `set` on a key whose resolved prefix names a
measurement in the bound set stores into that measurement's annotation
store under the full original key and leaves the general store untouched;
the following `get` returns the stored value *provided* no other layer of
the flattened view (the general store or a differently-named measurement)
already holds the literal key.  The hypotheses fix the state to a
well-formed, cache-consistent one: the cache matches the current name
set, the chain lists the current measurements, names are unique, and each
set entry points at a pool object declaring that name. -/
theorem c3_routed_write {α : Type} (w : World α) (key p metric : String)
    (i : Nat) (m : Measurement α) (v : α)
    (hp : getPfx key = some p)
    (hm : rstripDots p = metric)
    (hlook : dictGet? w.ms_items metric = some i)
    (hobj : w.objs[i]? = some m)
    (hname : m.metric_name = metric)
    (hpref : List.isPrefixOf (metric ++ ".").data key.data = true)
    (hcache : sameSet w.cached_prefixes (msNames w) = true)
    (hchain : w.chain_rest = w.ms_items.map Prod.snd)
    (hnd : (msNames w).Nodup)
    (hids : ∀ n j, (n, j) ∈ w.ms_items → ∀ m', w.objs[j]? = some m' →
      m'.metric_name = n)
    (hgen : dictGet? w.md_data key = none)
    (hmiss : ∀ n j, (n, j) ∈ w.ms_items → n ≠ metric →
      dictGet? (layerOf w.objs j) key = none) :
    dictGet? (layerOf (mdSet w key v).objs i) key = some v ∧
      (mdSet w key v).md_data = w.md_data ∧
      (mdGet (mdSet w key v) key).2 = some v := by
  have hkey : notesKey m key = key := by
    unfold notesKey
    rw [hname, if_pos hpref]
  have hset : mdSet w key v
      = { w with objs := w.objs.set i (notesSet m key v) } := by
    unfold mdSet
    rw [hp]
    show (match dictGet? w.ms_items (rstripDots p) with
      | some i =>
        match w.objs[i]? with
        | some m => { w with objs := w.objs.set i (notesSet m key v) }
        | none => w
      | none => { w with md_data := dictSet w.md_data key v }) = _
    rw [hm, hlook]
    show (match w.objs[i]? with
      | some m => { w with objs := w.objs.set i (notesSet m key v) }
      | none => w) = _
    rw [hobj]
  have hhit : dictGet? (layerOf (w.objs.set i (notesSet m key v)) i) key
      = some v := by
    unfold layerOf
    rw [getElem?_set_self_of_some hobj]
    show dictGet? (notesSet m key v).notes_data key = some v
    unfold notesSet
    show dictGet? (dictSet m.notes_data (notesKey m key) v) key = some v
    rw [hkey]
    exact dictGet?_dictSet_self _ _ _
  refine ⟨by rw [hset]; exact hhit, by rw [hset], ?_⟩
  rw [hset]
  set w' : World α := { w with objs := w.objs.set i (notesSet m key v) }
    with hw'
  have hrefresh : refreshChainmap w' = w' := refreshChainmap_eq_self hcache
  show chainGet? (refreshChainmap w') key = some v
  rw [hrefresh]
  unfold chainGet? layerStores
  show storesGet? (w.md_data :: w.chain_rest.map (layerOf w'.objs)) key
    = some v
  rw [storesGet?_cons_none hgen, hchain, List.map_map]
  have hilt : i < w.objs.length := by
    rcases List.getElem?_eq_some_iff.1 hobj with ⟨hlt, -⟩
    exact hlt
  refine storesGet?_notes_hit (dictGet?_mem hlook) hnd ?_ hhit
  intro n j hjmem hne
  by_cases hji : j = i
  · exfalso
    subst hji
    have h1 : m.metric_name = n := hids n j hjmem m hobj
    exact hne (h1.symm.trans hname)
  · have : (w.objs.set i (notesSet m key v))[j]? = w.objs[j]? :=
      List.getElem?_set_ne (fun h => hji h.symm)
    show dictGet? (layerOf w'.objs j) key = none
    unfold layerOf
    rw [show w'.objs = w.objs.set i (notesSet m key v) from rfl, this]
    exact hmiss n j hjmem hne

/-- C3 witness: with measurement `"a.b"` in the set, no collision anywhere
and a consistent cache, setting `"a.b.c"` routes the pair into the
measurement's annotation store under the full key, leaves the general
store untouched, and a read returns the stored value. -/
theorem c3_witness :
    dictGet? (layerOf (mdSet (⟨[⟨"a.b", []⟩], [("a.b", 0)], [], ["a.b"],
        [0]⟩ : World Nat) "a.b.c" 20).objs 0) "a.b.c" = some 20 ∧
      (mdSet (⟨[⟨"a.b", []⟩], [("a.b", 0)], [], ["a.b"],
        [0]⟩ : World Nat) "a.b.c" 20).md_data
        = (⟨[⟨"a.b", []⟩], [("a.b", 0)], [], ["a.b"],
          [0]⟩ : World Nat).md_data ∧
      (mdGet (mdSet (⟨[⟨"a.b", []⟩], [("a.b", 0)], [], ["a.b"],
        [0]⟩ : World Nat) "a.b.c" 20) "a.b.c").2 = some 20 := by
  refine c3_routed_write _ "a.b.c" "a.b." "a.b" 0 ⟨"a.b", []⟩ 20
    (by decide) (by decide) (by decide) (by decide) (by decide) (by decide)
    (by decide) (by decide) (by decide) ?_ (by decide) ?_
  · intro n j hmem m' hm'
    simp only [List.mem_singleton, Prod.mk.injEq] at hmem
    obtain ⟨rfl, rfl⟩ := hmem
    have hm'' : some (⟨"a.b", []⟩ : Measurement Nat) = some m' := by
      exact (by decide :
        ([⟨"a.b", []⟩] : List (Measurement Nat))[0]? = some ⟨"a.b", []⟩) ▸ hm'
    cases hm''
    rfl
  · intro n j hmem hne
    simp only [List.mem_singleton, Prod.mk.injEq] at hmem
    exact absurd hmem.1 hne

/-! ## Claim C5 -/

theorem sameSet_iff {a b : List String} :
    sameSet a b = true ↔ ((∀ x ∈ a, x ∈ b) ∧ (∀ x ∈ b, x ∈ a)) := by
  unfold sameSet
  exact decide_eq_true_iff

theorem storesGet?_append_none {α : Type}
    {S1 S2 : List (List (String × α))} {k : String}
    (h : ∀ d ∈ S1, dictGet? d k = none) :
    storesGet? (S1 ++ S2) k = storesGet? S2 k := by
  induction S1 with
  | nil => rfl
  | cons d S ih =>
    rw [List.cons_append, storesGet?_cons_none (h d (List.mem_cons_self _ _))]
    exact ih fun d' hd' => h d' (List.mem_cons_of_mem _ hd')

theorem dictSet_append_of_not_mem {β : Type} {d : List (String × β)}
    {k : String} (h : k ∉ dictKeys d) (v : β) :
    dictSet d k v = d ++ [(k, v)] := by
  induction d with
  | nil => rfl
  | cons p rest ih =>
    obtain ⟨k', v'⟩ := p
    have hk : k' ≠ k := fun hk => h (hk ▸ List.mem_cons_self _ _)
    show (if k' = k then _ else _) = _
    rw [if_neg hk, List.cons_append, ih]
    intro hmem
    exact h (List.mem_cons_of_mem _ hmem)

theorem mem_of_dictDel? {β : Type} {d d' : List (String × β)} {k : String}
    (h : dictDel? d k = some d') : ∀ x ∈ d', x ∈ d := by
  induction d generalizing d' with
  | nil => cases h
  | cons p rest ih =>
    obtain ⟨k', v'⟩ := p
    by_cases hk : k' = k
    · rw [show dictDel? ((k', v') :: rest) k = some rest from by
        simp [dictDel?, hk]] at h
      cases h
      exact fun x hx => List.mem_cons_of_mem _ hx
    · rw [show dictDel? ((k', v') :: rest) k
          = (dictDel? rest k).map fun d => (k', v') :: d from by
        simp [dictDel?, hk]] at h
      cases hrest : dictDel? rest k with
      | none => rw [hrest] at h; cases h
      | some drest =>
        rw [hrest] at h
        cases h
        intro x hx
        rcases List.mem_cons.1 hx with rfl | hx'
        · exact List.mem_cons_self _ _
        · exact List.mem_cons_of_mem _ (ih hrest x hx')

theorem dictDel?_mem_keys {β : Type} {d d' : List (String × β)} {k : String}
    (h : dictDel? d k = some d') : k ∈ dictKeys d := by
  induction d generalizing d' with
  | nil => cases h
  | cons p rest ih =>
    obtain ⟨k', v'⟩ := p
    by_cases hk : k' = k
    · exact hk ▸ List.mem_cons_self _ _
    · rw [show dictDel? ((k', v') :: rest) k
          = (dictDel? rest k).map fun d => (k', v') :: d from by
        simp [dictDel?, hk]] at h
      cases hrest : dictDel? rest k with
      | none => rw [hrest] at h; cases h
      | some drest => exact List.mem_cons_of_mem _ (ih hrest)

theorem dictDel?_keys {β : Type} {d d' : List (String × β)} {k : String}
    (h : dictDel? d k = some d') : dictKeys d' = (dictKeys d).erase k := by
  induction d generalizing d' with
  | nil => cases h
  | cons p rest ih =>
    obtain ⟨k', v'⟩ := p
    by_cases hk : k' = k
    · subst hk
      rw [show dictDel? ((k', v') :: rest) k' = some rest from by
        simp [dictDel?]] at h
      cases h
      show dictKeys rest = (k' :: dictKeys rest).erase k'
      rw [List.erase_cons_head]
    · rw [show dictDel? ((k', v') :: rest) k
          = (dictDel? rest k).map fun d => (k', v') :: d from by
        simp [dictDel?, hk]] at h
      cases hrest : dictDel? rest k with
      | none => rw [hrest] at h; cases h
      | some drest =>
        rw [hrest] at h
        cases h
        show k' :: dictKeys drest = (k' :: dictKeys rest).erase k
        rw [List.erase_cons_tail (by simp [hk]), ih hrest]

/-- The shape of the state after a successful `MeasurementSet` insertion:
the measurement is appended to the pool and its key bound to the new
index. -/
theorem msSetitem_ok_shape {α : Type} {w : World α} {name : String}
    {m : Measurement α} {w1 : World α}
    (h : msSetitem w name (.meas m) = .ok w1) :
    w1 = { w with
      objs := w.objs ++ [m]
      ms_items := dictSet w.ms_items name w.objs.length } := by
  unfold msSetitem at h
  split at h
  · dsimp only at h
    split at h
    · cases h
      rfl
    · cases h
  · cases h

/-- The shape of the state after a successful `MeasurementSet` deletion. -/
theorem msDelitem_ok_shape {α : Type} {w : World α} {name : String}
    {w1 : World α} (h : msDelitem w name = .ok w1) :
    ∃ items, dictDel? w.ms_items name = some items ∧
      w1 = { w with ms_items := items } := by
  unfold msDelitem at h
  split at h
  case h_1 items heq =>
    cases h
    exact ⟨items, heq, rfl⟩
  case h_2 => cases h

/-- A stale cache (name set changed) makes the next read rebuild: the
flattened view a read answers from is the general store followed by the
annotation stores of the measurements *currently* in the set, in
iteration order. -/
theorem mdGet_stale {α : Type} {w : World α} (k : String)
    (h : sameSet w.cached_prefixes (msNames w) = false) :
    (mdGet w k).2 = storesGet?
      (w.md_data :: w.ms_items.map fun p => layerOf w.objs p.2) k := by
  show chainGet? (refreshChainmap w) k = _
  unfold refreshChainmap
  rw [if_neg (by simp [h])]
  unfold chainGet? layerStores
  simp only [List.map_map]
  rfl

/-- C5 counterexample: replacing the measurement named `"a.b"` by a
*different* measurement object with the same name changes the membership
of the set (one measurement removed, one added), yet the cached name set
is unchanged, so the very next read still answers from the replaced
object's annotation store (`1`), not from the newly added one (`2`). -/
theorem c5_counterexample :
    msSetitem (⟨[⟨"a.b", [("a.b.note", 1)]⟩], [("a.b", 0)], [], ["a.b"],
        [0]⟩ : World Nat) "a.b" (.meas ⟨"a.b", [("a.b.note", 2)]⟩)
      = .ok (⟨[⟨"a.b", [("a.b.note", 1)]⟩, ⟨"a.b", [("a.b.note", 2)]⟩],
        [("a.b", 1)], [], ["a.b"], [0]⟩ : World Nat) ∧
      (mdGet (⟨[⟨"a.b", [("a.b.note", 1)]⟩, ⟨"a.b", [("a.b.note", 2)]⟩],
        [("a.b", 1)], [], ["a.b"], [0]⟩ : World Nat) "a.b.note").2
        = some 1 ∧
      some (1 : Nat) ≠ some 2 := by
  exact ⟨by rfl, by decide, by decide⟩

/-- C5 (amended): the staleness check watches the *set of metric names*,
not the membership itself.  (1) Whenever the cached name set differs from
the current one, the next read rebuilds and answers from the current
membership.  Consequently (2) inserting a measurement under a *fresh*
name makes its pre-existing annotations visible on the next read, and
(3) deleting a measurement hides its annotations on the next read.  (A
same-name replacement — membership change with an unchanged name set —
is not detected; see the counterexample.) -/
theorem c5_membership_refresh {α : Type} :
    (∀ (w : World α) (k : String),
      sameSet w.cached_prefixes (msNames w) = false →
      (mdGet w k).2 = storesGet?
        (w.md_data :: w.ms_items.map fun p => layerOf w.objs p.2) k) ∧
    (∀ (w w1 : World α) (name k : String) (m : Measurement α) (v : α),
      msSetitem w name (.meas m) = .ok w1 →
      name ∉ msNames w →
      sameSet w.cached_prefixes (msNames w) = true →
      dictGet? w.md_data k = none →
      (∀ n j, (n, j) ∈ w.ms_items → j < w.objs.length) →
      (∀ n j, (n, j) ∈ w.ms_items → dictGet? (layerOf w.objs j) k = none) →
      dictGet? m.notes_data k = some v →
      (mdGet w1 k).2 = some v) ∧
    (∀ (w w1 : World α) (name k : String),
      msDelitem w name = .ok w1 →
      sameSet w.cached_prefixes (msNames w) = true →
      (msNames w).Nodup →
      dictGet? w.md_data k = none →
      (∀ n j, (n, j) ∈ w.ms_items → n ≠ name →
        dictGet? (layerOf w.objs j) k = none) →
      (mdGet w1 k).2 = none) := by
  refine ⟨fun w k h => mdGet_stale k h, ?_, ?_⟩
  · intro w w1 name k m v hok hfresh hcache hgen hids hmiss hnote
    have hshape := msSetitem_ok_shape hok
    have happ : dictSet w.ms_items name w.objs.length
        = w.ms_items ++ [(name, w.objs.length)] :=
      dictSet_append_of_not_mem hfresh _
    have hnames1 : msNames w1 = msNames w ++ [name] := by
      rw [hshape]
      show dictKeys (dictSet w.ms_items name w.objs.length) = _
      rw [happ]
      simp [dictKeys, msNames]
    have hstale : sameSet w1.cached_prefixes (msNames w1) = false := by
      rcases Bool.eq_false_or_eq_true
          (sameSet w1.cached_prefixes (msNames w1)) with hb | hb
      · exfalso
        have hcached1 : w1.cached_prefixes = w.cached_prefixes := by
          rw [hshape]
        rw [hcached1, hnames1] at hb
        have hmem : name ∈ w.cached_prefixes :=
          (sameSet_iff.1 hb).2 name (List.mem_append_right _
            (List.mem_cons_self _ _))
        exact hfresh ((sameSet_iff.1 hcache).1 name hmem)
      · exact hb
    rw [mdGet_stale k hstale]
    have hmd1 : w1.md_data = w.md_data := by rw [hshape]
    have hitems1 : w1.ms_items = w.ms_items ++ [(name, w.objs.length)] := by
      rw [hshape]
      exact happ
    have hobjs1 : w1.objs = w.objs ++ [m] := by rw [hshape]
    rw [hmd1, storesGet?_cons_none hgen, hitems1, List.map_append]
    rw [storesGet?_append_none ?hold]
    case hold =>
      intro d hd
      rcases List.mem_map.1 hd with ⟨⟨n, j⟩, hmem, rfl⟩
      have hj : j < w.objs.length := hids n j hmem
      have : (layerOf w1.objs j) = layerOf w.objs j := by
        unfold layerOf
        rw [hobjs1, List.getElem?_append_left hj]
      rw [this]
      exact hmiss n j hmem
    show storesGet? [layerOf w1.objs w.objs.length] k = some v
    have hlast : layerOf w1.objs w.objs.length = m.notes_data := by
      unfold layerOf
      rw [hobjs1, List.getElem?_concat_length]
      rfl
    rw [hlast]
    exact storesGet?_cons_some hnote
  · intro w w1 name k hok hcache hnd hgen hmiss
    obtain ⟨items, hdel, hshape⟩ := msDelitem_ok_shape hok
    have hnamemem : name ∈ msNames w := dictDel?_mem_keys hdel
    have hkeys1 : msNames w1 = (msNames w).erase name := by
      rw [hshape]
      exact dictDel?_keys hdel
    have hstale : sameSet w1.cached_prefixes (msNames w1) = false := by
      rcases Bool.eq_false_or_eq_true
          (sameSet w1.cached_prefixes (msNames w1)) with hb | hb
      · exfalso
        have hcached1 : w1.cached_prefixes = w.cached_prefixes := by
          rw [hshape]
        rw [hcached1, hkeys1] at hb
        have hc : name ∈ w.cached_prefixes :=
          (sameSet_iff.1 hcache).2 name hnamemem
        have : name ∈ (msNames w).erase name := (sameSet_iff.1 hb).1 name hc
        exact ((List.Nodup.mem_erase_iff hnd).1 this).1 rfl
      · exact hb
    rw [mdGet_stale k hstale]
    have hmd1 : w1.md_data = w.md_data := by rw [hshape]
    have hobjs1 : w1.objs = w.objs := by rw [hshape]
    have hitems1 : w1.ms_items = items := by rw [hshape]
    rw [hmd1, storesGet?_cons_none hgen, hitems1, hobjs1]
    apply storesGet?_notes_none
    intro n j hmem
    have hmemw : (n, j) ∈ w.ms_items := mem_of_dictDel? hdel _ hmem
    have hne : n ≠ name := by
      have hnk : n ∈ dictKeys items := List.mem_map.2 ⟨(n, j), hmem, rfl⟩
      have : dictKeys items = (msNames w).erase name := dictDel?_keys hdel
      rw [this] at hnk
      exact ((List.Nodup.mem_erase_iff hnd).1 hnk).1
    exact hmiss n j hmemw hne

/-- C5 witness: inserting measurement `"a.b"` (carrying the annotation
`"a.b.note" ↦ 9`) into an empty set makes the annotation visible on the
next read; deleting it from a set hides it. -/
theorem c5_witness :
    (mdGet (⟨[⟨"a.b", [("a.b.note", 9)]⟩], [("a.b", 0)], [], [], []⟩ :
      World Nat) "a.b.note").2 = some 9 ∧
    (mdGet (⟨[⟨"a.b", [("a.b.note", 9)]⟩], [], [], ["a.b"], [0]⟩ :
      World Nat) "a.b.note").2 = none := by
  constructor
  · refine c5_membership_refresh.2.1
      (⟨[], [], [], [], []⟩ : World Nat) _ "a.b" "a.b.note"
      ⟨"a.b", [("a.b.note", 9)]⟩ 9 (by rfl) (by decide) (by decide)
      (by decide) ?_ ?_ (by decide)
    · intro n j hmem
      cases hmem
    · intro n j hmem
      cases hmem
  · refine c5_membership_refresh.2.2
      (⟨[⟨"a.b", [("a.b.note", 9)]⟩], [("a.b", 0)], [], ["a.b"], [0]⟩ :
        World Nat) _ "a.b" "a.b.note" (by rfl) (by decide) (by decide)
      (by decide) ?_
    intro n j hmem hne
    simp only [List.mem_singleton, Prod.mk.injEq] at hmem
    exact absurd hmem.1 hne

/-! ## Claim C8 -/

/-- C8: `MeasurementSet.__setitem__` rejects a non-metric key with a
`KeyError` (whatever the value), rejects a non-measurement value under a
metric key with a `TypeError`, rejects a measurement whose declared
metric name differs from the assigned key with a `KeyError` (whether or
not the key is metric-shaped), and on success binds the key — which then
equals the declared metric name — to the freshly stored measurement. -/
theorem c8_setitem_validation {α : Type} :
    (∀ (w : World α) (key : String) (v : PyVal α),
      nameIsMetric key = false → msSetitem w key v = .error .keyErr) ∧
    (∀ (w : World α) (key : String),
      nameIsMetric key = true → msSetitem w key .notMeas = .error .typeErr) ∧
    (∀ (w : World α) (key : String) (m : Measurement α),
      key ≠ m.metric_name → msSetitem w key (.meas m) = .error .keyErr) ∧
    (∀ (w w1 : World α) (key : String) (m : Measurement α),
      msSetitem w key (.meas m) = .ok w1 →
      key = m.metric_name ∧
        dictGet? w1.ms_items m.metric_name = some w.objs.length ∧
        w1.objs[w.objs.length]? = some m) := by
  refine ⟨?_, ?_, ?_, ?_⟩
  · intro w key v h
    unfold msSetitem
    rw [if_neg (by simp [h])]
  · intro w key h
    unfold msSetitem
    rw [if_pos h]
  · intro w key m h
    unfold msSetitem
    by_cases hk : nameIsMetric key = true
    · rw [if_pos hk]
      dsimp only
      rw [if_neg h]
    · rw [if_neg hk]
  · intro w w1 key m hok
    have hkey : key = m.metric_name := by
      by_contra hk
      unfold msSetitem at hok
      split at hok
      · dsimp only at hok
        rw [if_neg hk] at hok
        cases hok
      · cases hok
    have hshape := msSetitem_ok_shape hok
    subst hkey
    refine ⟨rfl, ?_, ?_⟩
    · rw [hshape]
      show dictGet? (dictSet w.ms_items m.metric_name w.objs.length)
        m.metric_name = some w.objs.length
      exact dictGet?_dictSet_self _ _ _
    · rw [hshape]
      show (w.objs ++ [m])[w.objs.length]? = some m
      exact List.getElem?_concat_length _ _

/-- C8 witness: the spec's own examples — inserting the measurement
declared `"validate_drp.PA1"` under key `"validate_drp.PA2"` raises a
`KeyError`; a non-measurement value raises a `TypeError`; a non-metric
key raises a `KeyError`; and a consistent insert stores the measurement
under its declared name. -/
theorem c8_witness :
    msSetitem (emptyWorld : World Nat) "note" (.meas ⟨"note", []⟩)
        = .error .keyErr ∧
      msSetitem (emptyWorld : World Nat) "a.b" .notMeas
        = .error .typeErr ∧
      msSetitem (emptyWorld : World Nat) "validate_drp.PA2"
        (.meas ⟨"validate_drp.PA1", []⟩) = .error .keyErr ∧
      (("validate_drp.PA1" : String) = "validate_drp.PA1" ∧
        dictGet? (⟨[⟨"validate_drp.PA1", []⟩], [("validate_drp.PA1", 0)],
          [], [], []⟩ : World Nat).ms_items "validate_drp.PA1" = some 0 ∧
        (⟨[⟨"validate_drp.PA1", []⟩], [("validate_drp.PA1", 0)], [], [],
          []⟩ : World Nat).objs[(0 : Nat)]? = some ⟨"validate_drp.PA1", []⟩) :=
  ⟨c8_setitem_validation.1 emptyWorld "note" _ (by decide),
    c8_setitem_validation.2.1 emptyWorld "a.b" (by decide),
    c8_setitem_validation.2.2.1 emptyWorld "validate_drp.PA2"
      ⟨"validate_drp.PA1", []⟩ (by decide),
    c8_setitem_validation.2.2.2 emptyWorld _ "validate_drp.PA1"
      ⟨"validate_drp.PA1", []⟩ (by rfl)⟩

/-! ## Claim C9 -/

/-- C9 counterexample: the claim says deleting a key whose prefix resolves
to a metric name *not* in the bound set signals a key-not-found error.
In the reachable state where the empty-set core holds `"a.b.c"` in its
general store (it was stored there by `set` for exactly that reason), the
delete falls through to the general store and succeeds. -/
theorem c9_counterexample :
    mdDel (⟨[], [], [("a.b.c", 3)], [], []⟩ : World Nat) "a.b.c"
      = ((⟨[], [], [], [], []⟩ : World Nat), false) := by
  decide

/-- C9 (amended): `delete` follows the very same routing decision as
`set`, and it errors exactly when the store it routes to lacks the key:
with the resolved metric present in the set, the error condition is the
key's absence from that measurement's annotation store; otherwise (no
prefix, or metric absent) it is the key's absence from the general store
— so a key whose prefix names an absent metric *is* deleted from the
general store without error whenever it is present there.  A failed
delete leaves the state unmodified. -/
theorem c9_delete_routing {α : Type} :
    (∀ (w : World α) (k : String),
      (mdDel w k).2 = true → (mdDel w k).1 = w) ∧
    (∀ (w : World α) (k p : String) (i : Nat) (m : Measurement α),
      getPfx k = some p →
      dictGet? w.ms_items (rstripDots p) = some i →
      w.objs[i]? = some m →
      ((mdDel w k).2 = true ↔
        dictDel? m.notes_data (notesKey m k) = none)) ∧
    (∀ (w : World α) (k : String),
      (∀ p, getPfx k = some p → dictGet? w.ms_items (rstripDots p) = none) →
      ((mdDel w k).2 = true ↔ dictDel? w.md_data k = none)) := by
  refine ⟨?_, ?_, ?_⟩
  · intro w k
    unfold mdDel
    cases hp : getPfx k with
    | some p =>
      dsimp only
      cases hlook : dictGet? w.ms_items (rstripDots p) with
      | some i =>
        dsimp only
        cases hobj : w.objs[i]? with
        | some m =>
          dsimp only
          cases hdel : notesDel? m k with
          | some m' =>
            dsimp only
            intro h
            cases h
          | none =>
            dsimp only
            intro _
            rfl
        | none =>
          dsimp only
          intro _
          rfl
      | none =>
        dsimp only
        cases hdel : dictDel? w.md_data k with
        | some d =>
          dsimp only
          intro h
          cases h
        | none =>
          dsimp only
          intro _
          rfl
    | none =>
      dsimp only
      cases hdel : dictDel? w.md_data k with
      | some d =>
        dsimp only
        intro h
        cases h
      | none =>
        dsimp only
        intro _
        rfl
  · intro w k p i m hp hlook hobj
    unfold mdDel
    rw [hp]
    show ((match dictGet? w.ms_items (rstripDots p) with
      | some i =>
        match w.objs[i]? with
        | some m =>
          match notesDel? m k with
          | some m' => ({ w with objs := w.objs.set i m' }, false)
          | none => (w, true)
        | none => (w, true)
      | none =>
        match dictDel? w.md_data k with
        | some d => ({ w with md_data := d }, false)
        | none => (w, true)).2 = true) ↔ _
    rw [hlook]
    show ((match w.objs[i]? with
      | some m =>
        match notesDel? m k with
        | some m' => ({ w with objs := w.objs.set i m' }, false)
        | none => (w, true)
      | none => (w, true)).2 = true) ↔ _
    rw [hobj]
    show ((match notesDel? m k with
      | some m' => ({ w with objs := w.objs.set i m' }, false)
      | none => (w, true)).2 = true) ↔ _
    unfold notesDel?
    cases hdel : dictDel? m.notes_data (notesKey m k) with
    | some d => simp [hdel]
    | none => simp [hdel]
  · intro w k hnone
    unfold mdDel
    cases hp : getPfx k with
    | some p =>
      show ((match dictGet? w.ms_items (rstripDots p) with
        | some i =>
          match w.objs[i]? with
          | some m =>
            match notesDel? m k with
            | some m' => ({ w with objs := w.objs.set i m' }, false)
            | none => (w, true)
          | none => (w, true)
        | none =>
          match dictDel? w.md_data k with
          | some d => ({ w with md_data := d }, false)
          | none => (w, true)).2 = true) ↔ _
      rw [hnone p hp]
      show ((match dictDel? w.md_data k with
        | some d => ({ w with md_data := d }, false)
        | none => (w, true)).2 = true) ↔ _
      cases hdel : dictDel? w.md_data k with
      | some d => simp [hdel]
      | none => simp [hdel]
    | none =>
      show ((match dictDel? w.md_data k with
        | some d => ({ w with md_data := d }, false)
        | none => (w, true)).2 = true) ↔ _
      cases hdel : dictDel? w.md_data k with
      | some d => simp [hdel]
      | none => simp [hdel]

/-- C9 witness: deleting the spec's `"missing_key"` from an empty core
errors and leaves the state unmodified; deleting an annotation key absent
from a present measurement's store errors; deleting a general-store key
whose prefix names an absent metric does not error. -/
theorem c9_witness :
    (mdDel (emptyWorld : World Nat) "missing_key").1 = emptyWorld ∧
      (mdDel (⟨[⟨"a.b", []⟩], [("a.b", 0)], [], ["a.b"], [0]⟩ : World Nat)
        "a.b.c").2 = true ∧
      (mdDel (⟨[], [], [("a.b.c", 3)], [], []⟩ : World Nat) "a.b.c").2
        = false := by
  refine ⟨?_, ?_, ?_⟩
  · exact c9_delete_routing.1 emptyWorld "missing_key" (by decide)
  · exact (c9_delete_routing.2.1
      (⟨[⟨"a.b", []⟩], [("a.b", 0)], [], ["a.b"], [0]⟩ : World Nat)
      "a.b.c" "a.b." 0 ⟨"a.b", []⟩ (by decide) (by decide)
      (by decide)).2 (by decide)
  · have h := c9_delete_routing.2.2
      (⟨[], [], [("a.b.c", 3)], [], []⟩ : World Nat) "a.b.c"
      (fun p hp => by
        have : p = "a.b." := by
          have hval : getPfx "a.b.c" = some "a.b." := by decide
          rw [hval] at hp
          cases hp
          rfl
        subst this
        decide)
    rcases Bool.eq_false_or_eq_true
        ((mdDel (⟨[], [], [("a.b.c", 3)], [], []⟩ : World Nat)
          "a.b.c").2) with hb | hb
    · exact absurd (h.1 hb) (by decide)
    · exact hb

/-! ## Claim C10 -/

theorem mem_dictKeys_dictSet_self {β : Type} (d : List (String × β))
    (k : String) (v : β) : k ∈ dictKeys (dictSet d k v) := by
  induction d with
  | nil => exact List.mem_cons_self _ _
  | cons p rest ih =>
    obtain ⟨k', v'⟩ := p
    by_cases h : k' = k
    · subst h
      show k' ∈ dictKeys (if k' = k' then (k', v) :: rest else _)
      rw [if_pos rfl]
      exact List.mem_cons_self _ _
    · show k ∈ dictKeys (if k' = k then _ else (k', v') :: dictSet rest k v)
      rw [if_neg h]
      exact List.mem_cons_of_mem _ ih

theorem mem_dictKeys_dictSet_of_mem {β : Type} {d : List (String × β)}
    {n k : String} (v : β) (h : n ∈ dictKeys d) :
    n ∈ dictKeys (dictSet d k v) := by
  induction d with
  | nil => cases h
  | cons p rest ih =>
    obtain ⟨k', v'⟩ := p
    by_cases hk : k' = k
    · subst hk
      show n ∈ dictKeys (if k' = k' then (k', v) :: rest else _)
      rw [if_pos rfl]
      exact h
    · show n ∈ dictKeys (if k' = k then _ else (k', v') :: dictSet rest k v)
      rw [if_neg hk]
      rcases List.mem_cons.1 h with rfl | h'
      · exact List.mem_cons_self _ _
      · exact List.mem_cons_of_mem _ (ih h')

theorem dictSet_ne_nil {β : Type} (d : List (String × β)) (k : String)
    (v : β) : dictSet d k v ≠ [] := by
  cases d with
  | nil => simp [dictSet]
  | cons p rest =>
    obtain ⟨k', v'⟩ := p
    show (if k' = k then (k', v) :: rest else (k', v') :: dictSet rest k v)
      ≠ []
    split <;> simp

/-- A successful constructor loop keeps every earlier name and binds each
inserted measurement's declared name. -/
theorem msInsertAll_names {α : Type} {ms : List (Measurement α)}
    {w w' : World α} (hok : msInsertAll ms w = .ok w') :
    (∀ n, n ∈ msNames w → n ∈ msNames w') ∧
      (∀ m ∈ ms, m.metric_name ∈ msNames w') := by
  induction ms generalizing w with
  | nil =>
    cases hok
    exact ⟨fun n h => h, by simp⟩
  | cons m rest ih =>
    unfold msInsertAll at hok
    cases hins : msInsert w m with
    | error e =>
      rw [hins] at hok
      cases hok
    | ok wm =>
      rw [hins] at hok
      have hshape := msSetitem_ok_shape
        (show msSetitem w m.metric_name (.meas m) = .ok wm from hins)
      have hup : ∀ n, n ∈ msNames w → n ∈ msNames wm := by
        intro n hn
        rw [hshape]
        exact mem_dictKeys_dictSet_of_mem _ hn
      have hself : m.metric_name ∈ msNames wm := by
        rw [hshape]
        exact mem_dictKeys_dictSet_self _ _ _
      obtain ⟨ha, hb⟩ := ih hok
      refine ⟨fun n hn => ha n (hup n hn), ?_⟩
      intro m' hm'
      rcases List.mem_cons.1 hm' with rfl | hm''
      · exact ha _ hself
      · exact hb m' hm''

/-- The constructor loop succeeds whenever every declared name is
metric-shaped. -/
theorem msInsertAll_ok {α : Type} {ms : List (Measurement α)}
    (h : ∀ m ∈ ms, nameIsMetric m.metric_name = true) :
    ∀ w : World α, ∃ w', msInsertAll ms w = .ok w' := by
  induction ms with
  | nil => exact fun w => ⟨w, rfl⟩
  | cons m rest ih =>
    intro w
    have hm := h m (List.mem_cons_self _ _)
    have hins : msInsert w m = .ok { w with
        objs := w.objs ++ [m]
        ms_items := dictSet w.ms_items m.metric_name w.objs.length } := by
      unfold msInsert msSetitem
      rw [if_pos hm]
      dsimp only
      rw [if_pos rfl]
    obtain ⟨w', hw'⟩ := ih (fun m' h' => h m' (List.mem_cons_of_mem _ h')) _
    refine ⟨w', ?_⟩
    unfold msInsertAll
    rw [hins]
    exact hw'

/-- Once the set holds an entry, the constructor loop cannot empty it. -/
theorem msInsertAll_nonempty {α : Type} {ms : List (Measurement α)}
    {w w' : World α} (hok : msInsertAll ms w = .ok w')
    (h : w.ms_items ≠ []) : w'.ms_items ≠ [] := by
  induction ms generalizing w with
  | nil =>
    cases hok
    exact h
  | cons m rest ih =>
    unfold msInsertAll at hok
    cases hins : msInsert w m with
    | error e =>
      rw [hins] at hok
      cases hok
    | ok wm =>
      rw [hins] at hok
      have hshape := msSetitem_ok_shape
        (show msSetitem w m.metric_name (.meas m) = .ok wm from hins)
      refine ih hok ?_
      rw [hshape]
      exact dictSet_ne_nil _ _ _

/-- C10: constructing a `MeasurementSet` without a measurements argument
iterates the default `None` and raises a `TypeError`; a list whose
measurements all declare metric-shaped names constructs successfully with
each measurement bound under its own declared metric name; and a
successful construction with an empty resulting set can only have been
given the explicit empty list. -/
theorem c10_init_behaviour {α : Type} :
    (msInit (none : Option (List (Measurement α))) = .error .typeErr) ∧
    (∀ ms : List (Measurement α),
      (∀ m ∈ ms, nameIsMetric m.metric_name = true) →
      ∃ w, msInit (some ms) = .ok w ∧
        ∀ m ∈ ms, m.metric_name ∈ msNames w) ∧
    (∀ (x : Option (List (Measurement α))) (w : World α),
      msInit x = .ok w → w.ms_items = [] → x = some []) := by
  refine ⟨rfl, ?_, ?_⟩
  · intro ms h
    obtain ⟨w, hw⟩ := msInsertAll_ok h emptyWorld
    exact ⟨w, hw, (msInsertAll_names hw).2⟩
  · intro x w hok hempty
    cases x with
    | none => cases hok
    | some ms =>
      cases ms with
      | nil => rfl
      | cons m rest =>
        exfalso
        unfold msInit msInsertAll at hok
        cases hins : msInsert emptyWorld m with
        | error e =>
          rw [hins] at hok
          cases hok
        | ok wm =>
          rw [hins] at hok
          have hshape := msSetitem_ok_shape
            (show msSetitem emptyWorld m.metric_name (.meas m) = .ok wm
              from hins)
          refine msInsertAll_nonempty hok ?_ hempty
          rw [hshape]
          exact dictSet_ne_nil _ _ _

/-- C10 witness: constructing from the one-element list binds the
measurement under its declared name, and the empty set arises from the
explicit empty list. -/
theorem c10_witness :
    (∃ w, msInit (some [(⟨"a.b", [("a.b.n", 1)]⟩ : Measurement Nat)])
        = .ok w ∧
      ∀ m ∈ [(⟨"a.b", [("a.b.n", 1)]⟩ : Measurement Nat)],
        m.metric_name ∈ msNames w) ∧
    some ([] : List (Measurement Nat)) = some [] :=
  ⟨c10_init_behaviour.2.1 _ (by decide),
    c10_init_behaviour.2.2 (some []) emptyWorld rfl rfl⟩
